import Mathlib

/-!
Verification of the banned-drug invoice matcher (`ocr_matcher.py`).

Strings are modelled as `List Char`.  The Python functions `normalize`,
`load_dataset_csv` (its row-shaping part) and `find_banned_drugs_in_invoice`
are embedded as executable Lean definitions; the external fuzzy scorer
(`rapidfuzz.fuzz.partial_ratio`) is modelled from the spec's description.
The OCR / PDF plumbing is out of scope (external collaborators): the matcher
is verified as a function of the per-page text list, and the dataset loader
as a function of an abstract file-system map.
-/

set_option maxRecDepth 100000
set_option maxHeartbeats 4000000

namespace OcrMatcher

/-- ASCII `[a-z0-9]` test (codes 97..122 and 48..57). -/
def isLowerAlphaNum (c : Char) : Bool :=
  decide ((97 ≤ c.toNat ∧ c.toNat ≤ 122) ∨ (48 ≤ c.toNat ∧ c.toNat ≤ 57))

/-- Python regex `\s` on the characters this program can produce:
space, tab, newline, carriage return, vertical tab, form feed
(codes 32, 9, 10, 13, 11, 12). -/
def isPySpace (c : Char) : Bool :=
  decide (c.toNat = 32 ∨ c.toNat = 9 ∨ c.toNat = 10 ∨ c.toNat = 13 ∨
    c.toNat = 11 ∨ c.toNat = 12)

/-- Python `str.lower` on one character (ASCII case mapping `A`..`Z` →
`a`..`z`; codes 65..90 shift by 32). -/
def lowerChar (c : Char) : Char :=
  if 65 ≤ c.toNat ∧ c.toNat ≤ 90 then Char.ofNat (c.toNat + 32) else c

/-- Python `str.upper` on one character (ASCII case mapping). -/
def upperChar (c : Char) : Char :=
  if 97 ≤ c.toNat ∧ c.toNat ≤ 122 then Char.ofNat (c.toNat - 32) else c

/-- `re.sub(r"[^a-z0-9\s]", " ", text)`: every character that is not a
lowercase ASCII letter, digit or whitespace becomes a single space. -/
def subNonAlnum (l : List Char) : List Char :=
  l.map fun c => if isLowerAlphaNum c || isPySpace c then c else ' '

/-- `re.sub(r"\s+", " ", text)`: collapse each maximal run of whitespace
characters to one space. -/
def collapseWs : List Char → List Char
  | [] => []
  | [c] => if isPySpace c then [' '] else [c]
  | a :: b :: rest =>
    if isPySpace a && isPySpace b then collapseWs (b :: rest)
    else (if isPySpace a then ' ' else a) :: collapseWs (b :: rest)

/-- Python `str.strip()`: drop leading and trailing whitespace. -/
def stripChars (l : List Char) : List Char :=
  ((l.dropWhile isPySpace).reverse.dropWhile isPySpace).reverse

/-- `normalize` from `ocr_matcher.py` (lines 37-41): lowercase, replace
non-`[a-z0-9\s]` characters by a space, collapse whitespace runs, strip. -/
def normalize (l : List Char) : List Char :=
  stripChars (collapseWs (subNonAlnum (l.map lowerChar)))

/-- One row update of the standard longest-common-subsequence dynamic
program: from the row for prefix `p` of the first string produce the row for
`p ++ [c]`, walking down the second string `b`.  `pj :: rest` is the previous
row from column `j` on, `nj` the freshly computed entry `j` of the new row. -/
def lcsStep (c : Char) : List Char → List Nat → Nat → List Nat
  | bj :: bs, pj :: rest, nj =>
    let nj1 := if c = bj then pj + 1 else max nj (rest.headD 0)
    nj1 :: lcsStep c bs rest nj1
  | _, _, _ => []

/-- Length of a longest common subsequence of `a` and `b` (row-by-row
dynamic program, so that concrete instances evaluate quickly). -/
def lcsLen (a b : List Char) : Nat :=
  (a.foldl (fun row c => 0 :: lcsStep c b row 0)
    (List.replicate (b.length + 1) 0)).getLastD 0

/-- Modelled from the spec: the similarity score of `rapidfuzz.fuzz.ratio`
(used by `fuzz.partial_ratio`, which `ocr_matcher.py` imports from the
external `rapidfuzz` library): a 0-100 percentage based on the
insertion/deletion edit distance, `100 * (1 - dist / (len a + len b))`,
which equals `100 * 2 * lcs / (len a + len b)`; two empty strings score
100. -/
def ratioQ (a b : List Char) : ℚ :=
  if a.length + b.length = 0 then 100
  else mkRat (200 * (lcsLen a b : Int)) (a.length + b.length)

/-- All contiguous substrings (windows) of `l`. -/
def substrWindows (l : List Char) : List (List Char) :=
  (List.range (l.length + 1)).flatMap fun i =>
    (List.range (l.length + 1 - i)).map fun n => (l.drop i).take n

/-- Maximum of two rationals, written so that it evaluates by kernel
reduction. -/
def qmax (a b : ℚ) : ℚ := if a ≤ b then b else a

/-- One round of pairwise maxima (halves the length of the list). -/
def pairMax : List ℚ → List ℚ
  | x :: y :: rest => qmax x y :: pairMax rest
  | l => l

/-- Maximum of a list of rationals (0 if empty) by repeated pairwise
reduction; the fuel bounds the number of rounds, and any fuel at least
`log2 (length)` rounds suffices.  The balanced shape keeps kernel
evaluation of concrete instances shallow. -/
def maxTree : Nat → List ℚ → ℚ
  | _, [] => 0
  | 0, x :: _ => x
  | _ + 1, [x] => x
  | fuel + 1, xs => maxTree fuel (pairMax xs)

/-- Best `ratioQ` of `s` against any contiguous window of `l`. -/
def bestWindowRatio (s l : List Char) : ℚ :=
  let scores := (substrWindows l).map (ratioQ s)
  maxTree scores.length scores

/-- Modelled from the spec: `rapidfuzz.fuzz.partial_ratio` — "the scoring
method finds the best-aligning contiguous window of the longer string
against the shorter and reports a 0-100 similarity percentage
(edit-distance-based)".  The external library is not part of this
repository, so the scorer is embedded from that description. -/
def partRatio (a b : List Char) : ℚ :=
  if a.length ≤ b.length then bestWindowRatio a b else bestWindowRatio b a

/-- Python's substring containment `g in t` for strings. -/
def isSubstr (g : List Char) : List Char → Bool
  | [] => g.isEmpty
  | b :: ts => g.isPrefixOf (b :: ts) || isSubstr g ts

/-- One shaped dataset row (`load_dataset_csv`, lines 53-58). -/
structure DatasetRow where
  brand : List Char
  generic : List Char
  is_banned : Bool
  batch : List Char
deriving DecidableEq

/-- `BANNED_KEYWORDS` (lines 13-15): the hard-coded safety-net set of
canonical banned generics, lowercase. -/
def BANNED_KEYWORDS : List (List Char) := ["nimesulide".toList]

/-- `FUZZY_THRESHOLD` (line 17). -/
def FUZZY_THRESHOLD : ℚ := 85

/-- Python `str.capitalize()`: first character uppercased, the rest
lowercased. -/
def capitalize : List Char → List Char
  | [] => []
  | c :: cs => upperChar c :: cs.map lowerChar

/-- Line 68 of the matcher: `invoice_text = normalize("\n".join(ocr_texts))`. -/
def invoiceTextOf (ocr_texts : List (List Char)) : List Char :=
  normalize (List.intercalate ['\n'] ocr_texts)

/-- Python `set.add`: a set of strings is modelled as a duplicate-free
list; adding a member already present leaves it unchanged. -/
def pySetInsert (x : List Char) (s : List (List Char)) : List (List Char) :=
  if x ∈ s then s else x :: s

/-- Python string comparison `a <= b`: lexicographic on code points. -/
def strLe : List Char → List Char → Bool
  | [], _ => true
  | _ :: _, [] => false
  | a :: as, b :: bs =>
    decide (a.toNat < b.toNat) || (decide (a = b) && strLe as bs)

/-- The lexicographic order on strings as a relation, for sortedness
statements. -/
def strLeProp (a b : List Char) : Prop := strLe a b = true

instance : DecidableRel strLeProp :=
  fun a b => inferInstanceAs (Decidable (strLe a b = true))

/-- The per-row body of the matcher loop (lines 71-87): skip non-banned
rows and rows whose normalized generic is empty; otherwise add the original
generic on an exact substring hit, else on a fuzzy score reaching the
threshold. -/
def rowStep (invoice_text : List Char) (acc : List (List Char))
    (r : DatasetRow) : List (List Char) :=
  if r.is_banned = false then acc
  else if normalize r.generic = [] then acc
  else if isSubstr (normalize r.generic) invoice_text then
    pySetInsert r.generic acc
  else if FUZZY_THRESHOLD ≤ partRatio (normalize r.generic) invoice_text then
    pySetInsert r.generic acc
  else acc

/-- The safety-net loop body (lines 90-92): a keyword found in the invoice
text adds its capitalized form. -/
def kwStep (invoice_text : List Char) (acc : List (List Char))
    (kw : List Char) : List (List Char) :=
  if isSubstr kw invoice_text then pySetInsert (capitalize kw) acc else acc

/-- `find_banned_drugs_in_invoice` (lines 63-94): normalize and join the
page texts, run the dataset pass then the safety-net pass accumulating a
set, return it sorted (`sorted(found_banned)`; on a duplicate-free
accumulator every sorting algorithm for the total order `strLeProp` returns
the same list, so insertion sort models Python's `sorted`). -/
def find_banned_drugs_in_invoice (ocr_texts : List (List Char))
    (dataset_rows : List DatasetRow) : List (List Char) :=
  let invoice_text := invoiceTextOf ocr_texts
  let found_banned := dataset_rows.foldl (rowStep invoice_text) []
  let found_all := BANNED_KEYWORDS.foldl (kwStep invoice_text) found_banned
  List.insertionSort strLeProp found_all

/-- A raw record produced by `csv.DictReader`: an association list from
column names to values.  A key absent from the list models a column that
is not in the CSV header at all; a key mapped to `none` models Python
`None`, which `DictReader` uses (`restval`) for columns named in the
header but missing from a short data row. -/
def RawRecord : Type := List (List Char × Option (List Char))

/-- Python `r.get(k, "")` on a `DictReader` row: the default `""` is used
only when the key is absent; a key present with value `None` returns
`None`. -/
def pyDictGet (r : RawRecord) (k : List Char) : Option (List Char) :=
  match List.lookup k r with
  | none => some []
  | some v => v

/-- Python `str(x)` on a value that is either a string or `None`. -/
def pyStr : Option (List Char) → List Char
  | some s => s
  | none => "None".toList

/-- Python `str.lower()`. -/
def lowerStr (l : List Char) : List Char := l.map lowerChar

/-- The row-shaping body of `load_dataset_csv` (lines 53-58): build the
dict `{brand, generic, is_banned, batch}` from a raw record.  `.strip()`
on a `None` value raises `AttributeError`, modelled by `none`; the
`is_banned` field is wrapped in `str(...)` and never raises. -/
def shapeRow (r : RawRecord) : Option DatasetRow :=
  match pyDictGet r ("brand".toList), pyDictGet r ("generic".toList),
      pyDictGet r ("batch".toList) with
  | some b, some g, some bt =>
    some { brand := stripChars b
           generic := stripChars g
           is_banned :=
             decide (lowerStr (pyStr (pyDictGet r ("is_banned".toList))) =
               "true".toList)
           batch := stripChars bt }
  | _, _, _ => none

/-- What the file system holds at a path: no file, a file that exists but
cannot be opened/read, or a readable file whose CSV content `DictReader`
would present as the given raw records. -/
inductive FileStat where
  | absent
  | unreadable
  | readable (recs : List RawRecord)

/-- Whether a source's file is missing (`os.path.exists` false). -/
def FileStat.isAbsent : FileStat → Bool
  | .absent => true
  | _ => false

/-- A Python exception escaping `load_dataset_csv`. -/
inductive PyErr where
  | osError
  | attrError
deriving DecidableEq

/-- The loop of `load_dataset_csv` (lines 45-59): skip falsy paths and
paths that fail `os.path.exists`; `open` on an existing but unreadable
file raises; otherwise shape every record of the file, appending to the
accumulated rows. -/
def loadAux (fs : List Char → FileStat) :
    List (List Char) → List DatasetRow → Except PyErr (List DatasetRow)
  | [], rows => .ok rows
  | p :: ps, rows =>
    if p = [] then loadAux fs ps rows
    else
      match fs p with
      | .absent => loadAux fs ps rows
      | .unreadable => .error .osError
      | .readable recs =>
        match recs.mapM shapeRow with
        | none => .error .attrError
        | some rs => loadAux fs ps (rows ++ rs)

/-- `load_dataset_csv` (lines 45-59) over an abstract file system. -/
def load_dataset_csv (fs : List Char → FileStat)
    (csv_paths : List (List Char)) : Except PyErr (List DatasetRow) :=
  loadAux fs csv_paths []

/-! Concrete behavior checks of the embedded definitions. -/

example : normalize ("Item: CEFIXIME-200mg tablet".toList) =
    "item cefixime 200mg tablet".toList := by decide

example : normalize ("  a\t\nb!!".toList) = "a b".toList := by decide

example : normalize ([] : List Char) = [] := by decide

example : lcsLen ("abcde".toList) ("axcye".toList) = 3 := by decide

example : lcsLen ("abc".toList) ([]) = 0 := by decide

example : lcsLen ("abc".toList) ("abc".toList) = 3 := by decide

example : partRatio ("ab".toList) ("ab".toList) = 100 := by decide

example : partRatio ("ab".toList) ("zzabzz".toList) = 100 := by decide

example : partRatio ("ab".toList) ("bc".toList) = mkRat 200 3 := by decide

example : isSubstr ("cef".toList) ("abcefg".toList) = true := by decide

example : isSubstr ("cef".toList) ("abceg".toList) = false := by decide

example : isSubstr [] [] = true := by decide

example : capitalize ("nimesulide".toList) = "Nimesulide".toList := by decide

example :
    find_banned_drugs_in_invoice [("Item: CEFIXIME-200mg tablet".toList)]
      [⟨[], "Cefixime".toList, true, []⟩] = ["Cefixime".toList] := by decide

example :
    shapeRow [(("generic".toList), some (" Cefixime ".toList)),
      (("is_banned".toList), some ("TRUE".toList))] =
    some ⟨[], "Cefixime".toList, true, []⟩ := by decide

example :
    shapeRow [(("brand".toList), some ("X".toList)),
      (("generic".toList), some ("Y".toList)),
      (("is_banned".toList), (none : Option (List Char))),
      (("batch".toList), (none : Option (List Char)))] = none := by decide

example :
    load_dataset_csv (fun _ => FileStat.absent) ["a".toList, [], "b".toList] =
    .ok [] := rfl

theorem lowerChar_eq_self {c : Char}
    (h : isLowerAlphaNum c = true ∨ c = ' ') : lowerChar c = c := by
  rcases h with h | rfl
  · simp only [isLowerAlphaNum, decide_eq_true_eq] at h
    unfold lowerChar
    rw [if_neg (by omega)]
  · decide

theorem alnum_not_space {c : Char} (h : isLowerAlphaNum c = true) :
    isPySpace c = false := by
  simp only [isLowerAlphaNum, decide_eq_true_eq] at h
  simp only [isPySpace, decide_eq_false_iff_not]
  omega

theorem space_of_pySpace {c : Char}
    (h1 : isLowerAlphaNum c = true ∨ c = ' ') (hws : isPySpace c = true) :
    c = ' ' := by
  rcases h1 with h1 | rfl
  · rw [alnum_not_space h1] at hws; cases hws
  · rfl

theorem map_lowerChar_id {l : List Char}
    (h : ∀ c ∈ l, isLowerAlphaNum c = true ∨ c = ' ') :
    l.map lowerChar = l := by
  induction l with
  | nil => rfl
  | cons a t ih =>
    simp only [List.map_cons]
    rw [lowerChar_eq_self (h a (List.mem_cons_self a t)),
      ih (fun c hc => h c (List.mem_cons_of_mem a hc))]

theorem subNonAlnum_mem {l : List Char} {c : Char} (hc : c ∈ subNonAlnum l) :
    isLowerAlphaNum c = true ∨ isPySpace c = true := by
  simp only [subNonAlnum, List.mem_map] at hc
  obtain ⟨d, _, rfl⟩ := hc
  by_cases hgood : (isLowerAlphaNum d || isPySpace d) = true
  · rw [if_pos hgood]; simpa using hgood
  · rw [if_neg hgood]; right; decide

theorem subNonAlnum_eq_self {l : List Char}
    (h : ∀ c ∈ l, isLowerAlphaNum c = true ∨ c = ' ') :
    subNonAlnum l = l := by
  induction l with
  | nil => rfl
  | cons a t ih =>
    have ha : (isLowerAlphaNum a || isPySpace a) = true := by
      rcases h a (List.mem_cons_self a t) with h' | rfl
      · simp [h']
      · decide
    simp only [subNonAlnum, List.map_cons] at *
    rw [if_pos ha, ih (fun c hc => h c (List.mem_cons_of_mem a hc))]

theorem collapse_mem :
    ∀ {l : List Char},
      (∀ c ∈ l, isLowerAlphaNum c = true ∨ isPySpace c = true) →
      ∀ {c : Char}, c ∈ collapseWs l →
      isLowerAlphaNum c = true ∨ c = ' ' := by
  intro l
  induction l with
  | nil => intro _ c hc; cases hc
  | cons a t ih =>
    intro h c hc
    cases t with
    | nil =>
      simp only [collapseWs] at hc
      split_ifs at hc with hws
      · right; simpa using hc
      · have := h a (List.mem_cons_self a [])
        rcases this with h' | h'
        · left; rw [List.mem_singleton] at hc; rw [hc]; exact h'
        · exact absurd h' hws
    | cons b rest =>
      simp only [collapseWs] at hc
      split_ifs at hc with h1 h2
      · exact ih (fun d hd => h d (List.mem_cons_of_mem a hd)) hc
      · rcases List.mem_cons.mp hc with rfl | hc'
        · right; rfl
        · exact ih (fun d hd => h d (List.mem_cons_of_mem a hd)) hc'
      · rcases List.mem_cons.mp hc with rfl | hc'
        · rcases h c (List.mem_cons_self c (b :: rest)) with h' | h'
          · exact Or.inl h'
          · exact absurd h' h2
        · exact ih (fun d hd => h d (List.mem_cons_of_mem a hd)) hc'

theorem collapse_head_cons {b : Char} {rest : List Char}
    (hb : isPySpace b = false) :
    ∃ tl, collapseWs (b :: rest) = b :: tl := by
  cases rest with
  | nil => exact ⟨[], by simp [collapseWs, hb]⟩
  | cons c rs => exact ⟨collapseWs (c :: rs), by simp [collapseWs, hb]⟩

theorem collapse_chain :
    ∀ l : List Char,
      List.Chain' (fun x y => ¬(isPySpace x = true ∧ isPySpace y = true))
        (collapseWs l) := by
  intro l
  induction l with
  | nil => simp [collapseWs]
  | cons a t ih =>
    cases t with
    | nil =>
      simp only [collapseWs]
      split_ifs <;> exact List.chain'_singleton _
    | cons b rest =>
      simp only [collapseWs]
      split_ifs with h1 hwa
      · exact ih
      · rw [List.chain'_cons']
        refine ⟨?_, ih⟩
        intro y hy
        have hb : isPySpace b = false := by
          cases hbb : isPySpace b
          · rfl
          · exact absurd (by simp [hwa, hbb]) h1
        obtain ⟨tl, htl⟩ := collapse_head_cons hb
        rw [htl] at hy
        simp only [List.head?_cons, Option.mem_def, Option.some.injEq] at hy
        rw [← hy]
        intro hcon
        rw [hb] at hcon
        exact Bool.false_ne_true hcon.2
      · rw [List.chain'_cons']
        refine ⟨?_, ih⟩
        intro y _ hcon
        exact hwa hcon.1

theorem collapse_eq_self :
    ∀ {l : List Char},
      (∀ c ∈ l, isLowerAlphaNum c = true ∨ c = ' ') →
      List.Chain' (fun x y => ¬(x = ' ' ∧ y = ' ')) l →
      collapseWs l = l := by
  intro l
  induction l with
  | nil => intro _ _; rfl
  | cons a t ih =>
    intro h1 h2
    cases t with
    | nil =>
      simp only [collapseWs]
      split_ifs with hws
      · rw [space_of_pySpace (h1 a (List.mem_cons_self a [])) hws]
      · rfl
    | cons b rest =>
      rw [List.chain'_cons] at h2
      obtain ⟨hab, h2'⟩ := h2
      have hbranch : ¬((isPySpace a && isPySpace b) = true) := by
        intro hcon
        rw [Bool.and_eq_true] at hcon
        exact hab ⟨space_of_pySpace (h1 a (List.mem_cons_self a _)) hcon.1,
          space_of_pySpace (h1 b (List.mem_cons_of_mem a
            (List.mem_cons_self b _))) hcon.2⟩
      simp only [collapseWs]
      rw [if_neg hbranch]
      have hrest := ih (fun d hd => h1 d (List.mem_cons_of_mem a hd)) h2'
      by_cases hwa : isPySpace a = true
      · rw [if_pos hwa, hrest,
          space_of_pySpace (h1 a (List.mem_cons_self a _)) hwa]
      · rw [if_neg hwa, hrest]

theorem dropWhile_head_false {α : Type} (p : α → Bool) :
    ∀ {l : List α} {c : α}, (l.dropWhile p).head? = some c → p c = false := by
  intro l
  induction l with
  | nil => intro c hc; cases hc
  | cons a t ih =>
    intro c hc
    rw [List.dropWhile_cons] at hc
    split_ifs at hc with ha
    · exact ih hc
    · rw [List.head?_cons, Option.some.injEq] at hc
      rw [← hc]
      exact Bool.not_eq_true _ ▸ ha

theorem chain'_dropWhile {α : Type} {R : α → α → Prop} (p : α → Bool) :
    ∀ {l : List α}, List.Chain' R l → List.Chain' R (l.dropWhile p) := by
  intro l
  induction l with
  | nil => intro h; exact h
  | cons a t ih =>
    intro h
    rw [List.dropWhile_cons]
    split_ifs with ha
    · exact ih h.tail
    · exact h

theorem strip_subset {l : List Char} {c : Char} (hc : c ∈ stripChars l) :
    c ∈ l := by
  unfold stripChars at hc
  rw [List.mem_reverse] at hc
  have h1 := (List.dropWhile_suffix isPySpace).sublist.subset hc
  rw [List.mem_reverse] at h1
  exact (List.dropWhile_suffix isPySpace).sublist.subset h1

theorem strip_chain {R : Char → Char → Prop}
    (hsymm : ∀ a b, R a b → R b a) {l : List Char}
    (h : List.Chain' R l) : List.Chain' R (stripChars l) := by
  unfold stripChars
  have h1 : List.Chain' R (l.dropWhile isPySpace) := chain'_dropWhile _ h
  have h2 : List.Chain' R (l.dropWhile isPySpace).reverse :=
    List.chain'_reverse.mpr (h1.imp (fun a b hab => hsymm a b hab))
  have h3 := chain'_dropWhile (R := R) isPySpace h2
  exact List.chain'_reverse.mpr (h3.imp (fun a b hab => hsymm a b hab))

theorem strip_head_not_space {l : List Char} {c : Char}
    (hc : (stripChars l).head? = some c) : isPySpace c = false := by
  unfold stripChars at hc
  rw [List.head?_reverse] at hc
  obtain ⟨pre, hpre⟩ := List.dropWhile_suffix (l := (l.dropWhile isPySpace).reverse) isPySpace
  have hlast : ((l.dropWhile isPySpace).reverse).getLast? = some c := by
    rw [← hpre, List.getLast?_append, hc, Option.or_some]
  rw [List.getLast?_reverse] at hlast
  exact dropWhile_head_false isPySpace hlast

theorem strip_last_not_space {l : List Char} {c : Char}
    (hc : (stripChars l).getLast? = some c) : isPySpace c = false := by
  unfold stripChars at hc
  rw [List.getLast?_reverse] at hc
  exact dropWhile_head_false isPySpace hc

theorem normalize_mem {s : List Char} :
    ∀ c ∈ normalize s, isLowerAlphaNum c = true ∨ c = ' ' := by
  intro c hc
  exact collapse_mem (fun d hd => subNonAlnum_mem hd) (strip_subset hc)

theorem normalize_chain (s : List Char) :
    List.Chain' (fun x y => ¬(x = ' ' ∧ y = ' ')) (normalize s) := by
  unfold normalize
  apply strip_chain (fun a b hab hcon => hab ⟨hcon.2, hcon.1⟩)
  refine (collapse_chain _).imp (fun a b hab hcon => hab ⟨?_, ?_⟩)
  · rw [hcon.1]; decide
  · rw [hcon.2]; decide

theorem normalize_head (s : List Char) : (normalize s).head? ≠ some ' ' := by
  intro hcon
  have := strip_head_not_space (l := collapseWs (subNonAlnum (s.map lowerChar))) hcon
  simp [isPySpace] at this

theorem normalize_last (s : List Char) : (normalize s).getLast? ≠ some ' ' := by
  intro hcon
  have := strip_last_not_space (l := collapseWs (subNonAlnum (s.map lowerChar))) hcon
  simp [isPySpace] at this

theorem dropWhile_eq_self_of_head {l : List Char}
    (h : ∀ c, l.head? = some c → isPySpace c = false) :
    l.dropWhile isPySpace = l := by
  cases l with
  | nil => rfl
  | cons a t => simp [List.dropWhile_cons, h a rfl]

theorem strip_eq_self {l : List Char}
    (hh : ∀ c, l.head? = some c → isPySpace c = false)
    (hl : ∀ c, l.getLast? = some c → isPySpace c = false) :
    stripChars l = l := by
  unfold stripChars
  rw [dropWhile_eq_self_of_head hh,
    dropWhile_eq_self_of_head
      (fun c hc => hl c (by rwa [List.head?_reverse] at hc)),
    List.reverse_reverse]

theorem normalize_eq_self {l : List Char}
    (h1 : ∀ c ∈ l, isLowerAlphaNum c = true ∨ c = ' ')
    (h2 : List.Chain' (fun x y => ¬(x = ' ' ∧ y = ' ')) l)
    (hh : l.head? ≠ some ' ') (hl : l.getLast? ≠ some ' ') :
    normalize l = l := by
  unfold normalize
  rw [map_lowerChar_id h1, subNonAlnum_eq_self h1, collapse_eq_self h1 h2]
  apply strip_eq_self
  · intro c hc
    rcases h1 c (List.mem_of_mem_head? (hc ▸ rfl)) with h' | rfl
    · exact alnum_not_space h'
    · exact absurd hc hh
  · intro c hc
    rcases h1 c (List.mem_of_getLast?_eq_some hc) with h' | rfl
    · exact alnum_not_space h'
    · exact absurd hc hl

theorem char_toNat_inj {a b : Char} (h : a.toNat = b.toNat) : a = b := by
  have h2 := congrArg Char.ofNat h
  rwa [Char.ofNat_toNat, Char.ofNat_toNat] at h2

theorem strLe_total : ∀ a b : List Char, strLe a b = true ∨ strLe b a = true := by
  intro a
  induction a with
  | nil => intro b; left; rfl
  | cons x xs ih =>
    intro b
    cases b with
    | nil => right; rfl
    | cons y ys =>
      simp only [strLe, Bool.or_eq_true, Bool.and_eq_true, decide_eq_true_eq]
      rcases Nat.lt_trichotomy x.toNat y.toNat with h | h | h
      · exact Or.inl (Or.inl h)
      · have hxy : x = y := char_toNat_inj h
        rcases ih ys with h' | h'
        · exact Or.inl (Or.inr ⟨hxy, h'⟩)
        · exact Or.inr (Or.inr ⟨hxy.symm, h'⟩)
      · exact Or.inr (Or.inl h)

theorem strLe_trans :
    ∀ {a b c : List Char}, strLe a b = true → strLe b c = true →
      strLe a c = true := by
  intro a
  induction a with
  | nil => intro b c _ _; rfl
  | cons x xs ih =>
    intro b c hab hbc
    cases b with
    | nil => cases hab
    | cons y ys =>
      cases c with
      | nil => cases hbc
      | cons z zs =>
        simp only [strLe, Bool.or_eq_true, Bool.and_eq_true,
          decide_eq_true_eq] at hab hbc ⊢
        rcases hab with hab | ⟨rfl, hab⟩
        · rcases hbc with hbc | ⟨rfl, _⟩
          · exact Or.inl (Nat.lt_trans hab hbc)
          · exact Or.inl hab
        · rcases hbc with hbc | ⟨rfl, hbc⟩
          · exact Or.inl hbc
          · exact Or.inr ⟨rfl, ih hab hbc⟩

instance : IsTrans (List Char) strLeProp :=
  ⟨fun _ _ _ hab hbc => strLe_trans hab hbc⟩

instance : IsTotal (List Char) strLeProp :=
  ⟨fun a b => strLe_total a b⟩

theorem mem_pySetInsert_self (x : List Char) (s : List (List Char)) :
    x ∈ pySetInsert x s := by
  unfold pySetInsert
  split_ifs with h
  · exact h
  · exact List.mem_cons_self x s

theorem mem_pySetInsert_of_mem {y : List Char} {s : List (List Char)}
    (x : List Char) (h : y ∈ s) : y ∈ pySetInsert x s := by
  unfold pySetInsert
  split_ifs
  · exact h
  · exact List.mem_cons_of_mem x h

theorem pySetInsert_nodup {x : List Char} {s : List (List Char)}
    (h : s.Nodup) : (pySetInsert x s).Nodup := by
  unfold pySetInsert
  split_ifs with hm
  · exact h
  · exact List.nodup_cons.mpr ⟨hm, h⟩

theorem rowStep_mono {inv : List Char} {acc : List (List Char)}
    {r : DatasetRow} {x : List Char} (h : x ∈ acc) : x ∈ rowStep inv acc r := by
  unfold rowStep
  split_ifs <;>
    first
    | exact h
    | exact mem_pySetInsert_of_mem _ h

theorem rowStep_nodup {inv : List Char} {acc : List (List Char)}
    {r : DatasetRow} (h : acc.Nodup) : (rowStep inv acc r).Nodup := by
  unfold rowStep
  split_ifs <;>
    first
    | exact h
    | exact pySetInsert_nodup h

theorem rowStep_not_banned {inv : List Char} {acc : List (List Char)}
    {r : DatasetRow} (h : r.is_banned = false) : rowStep inv acc r = acc := by
  unfold rowStep
  rw [if_pos h]

theorem rowStep_mem_self {inv : List Char} {r : DatasetRow}
    (acc : List (List Char)) (hb : r.is_banned = true)
    (hne : normalize r.generic ≠ [])
    (hcond : isSubstr (normalize r.generic) inv = true ∨
      FUZZY_THRESHOLD ≤ partRatio (normalize r.generic) inv) :
    r.generic ∈ rowStep inv acc r := by
  unfold rowStep
  rw [if_neg (by simp [hb]), if_neg hne]
  rcases hcond with h | h
  · rw [if_pos h]
    exact mem_pySetInsert_self _ _
  · by_cases hsub : isSubstr (normalize r.generic) inv = true
    · rw [if_pos hsub]
      exact mem_pySetInsert_self _ _
    · rw [if_neg hsub, if_pos h]
      exact mem_pySetInsert_self _ _

theorem kwStep_mono {inv : List Char} {acc : List (List Char)}
    {kw x : List Char} (h : x ∈ acc) : x ∈ kwStep inv acc kw := by
  unfold kwStep
  split_ifs
  · exact mem_pySetInsert_of_mem _ h
  · exact h

theorem kwStep_nodup {inv : List Char} {acc : List (List Char)}
    {kw : List Char} (h : acc.Nodup) : (kwStep inv acc kw).Nodup := by
  unfold kwStep
  split_ifs
  · exact pySetInsert_nodup h
  · exact h

theorem foldl_rowStep_mono {inv x} :
    ∀ {rows : List DatasetRow} {acc : List (List Char)}, x ∈ acc →
      x ∈ rows.foldl (rowStep inv) acc := by
  intro rows
  induction rows with
  | nil => intro acc h; exact h
  | cons r rs ih =>
    intro acc h
    rw [List.foldl_cons]
    exact ih (rowStep_mono h)

theorem foldl_rowStep_nodup {inv} :
    ∀ {rows : List DatasetRow} {acc : List (List Char)}, acc.Nodup →
      (rows.foldl (rowStep inv) acc).Nodup := by
  intro rows
  induction rows with
  | nil => intro acc h; exact h
  | cons r rs ih =>
    intro acc h
    rw [List.foldl_cons]
    exact ih (rowStep_nodup h)

theorem foldl_rowStep_mem {inv : List Char} {r : DatasetRow} :
    ∀ {rows : List DatasetRow} {acc : List (List Char)}, r ∈ rows →
      (∀ a, r.generic ∈ rowStep inv a r) →
      r.generic ∈ rows.foldl (rowStep inv) acc := by
  intro rows
  induction rows with
  | nil => intro acc h _; cases h
  | cons r' rs ih =>
    intro acc hr hadd
    rw [List.foldl_cons]
    rcases List.mem_cons.mp hr with rfl | hr'
    · exact foldl_rowStep_mono (hadd acc)
    · exact ih hr' hadd

theorem foldl_kwStep_mono {inv x} :
    ∀ {kws : List (List Char)} {acc : List (List Char)}, x ∈ acc →
      x ∈ kws.foldl (kwStep inv) acc := by
  intro kws
  induction kws with
  | nil => intro acc h; exact h
  | cons k ks ih =>
    intro acc h
    rw [List.foldl_cons]
    exact ih (kwStep_mono h)

theorem foldl_kwStep_nodup {inv} :
    ∀ {kws : List (List Char)} {acc : List (List Char)}, acc.Nodup →
      (kws.foldl (kwStep inv) acc).Nodup := by
  intro kws
  induction kws with
  | nil => intro acc h; exact h
  | cons k ks ih =>
    intro acc h
    rw [List.foldl_cons]
    exact ih (kwStep_nodup h)

theorem mem_find_banned_iff {texts : List (List Char)}
    {rows : List DatasetRow} {x : List Char} :
    x ∈ find_banned_drugs_in_invoice texts rows ↔
    x ∈ BANNED_KEYWORDS.foldl (kwStep (invoiceTextOf texts))
      (rows.foldl (rowStep (invoiceTextOf texts)) []) :=
  (List.perm_insertionSort strLeProp _).mem_iff

theorem isSubstr_iff {g t : List Char} :
    isSubstr g t = true ↔ ∃ u v, u ++ g ++ v = t := by
  induction t with
  | nil =>
    cases g with
    | nil => simp [isSubstr]
    | cons x xs =>
      simp only [isSubstr, List.isEmpty_cons]
      constructor
      · intro h; cases h
      · rintro ⟨u, v, huv⟩
        cases u <;> cases huv
  | cons b ts ih =>
    simp only [isSubstr, Bool.or_eq_true, List.isPrefixOf_iff_prefix, ih]
    constructor
    · rintro (⟨w, hw⟩ | ⟨u, v, huv⟩)
      · exact ⟨[], w, by simpa using hw⟩
      · exact ⟨b :: u, v, by simp [huv]⟩
    · rintro ⟨u, v, huv⟩
      cases u with
      | nil => exact Or.inl ⟨v, by simpa using huv⟩
      | cons x u' =>
        injection huv with h1 h2
        exact Or.inr ⟨u', v, h2⟩

theorem foldl_rowStep_filter {inv : List Char} :
    ∀ (rows : List DatasetRow) (acc : List (List Char)),
      rows.foldl (rowStep inv) acc =
      (rows.filter fun r => r.is_banned).foldl (rowStep inv) acc := by
  intro rows
  induction rows with
  | nil => intro acc; rfl
  | cons r rs ih =>
    intro acc
    rw [List.foldl_cons, List.filter_cons]
    cases hb : r.is_banned
    · rw [if_neg (by simp), rowStep_not_banned hb]
      exact ih acc
    · rw [if_pos rfl, List.foldl_cons]
      exact ih _

/-- Claim C1: a banned dataset row whose non-empty normalized generic occurs
as a contiguous substring of the normalized invoice text contributes its
original (non-normalized) generic string to the matcher result, with no
condition on any fuzzy similarity score. -/
theorem C1_exact_match_included (texts : List (List Char))
    (rows : List DatasetRow) (r : DatasetRow) (hr : r ∈ rows)
    (hb : r.is_banned = true) (hne : normalize r.generic ≠ [])
    (hsub : isSubstr (normalize r.generic) (invoiceTextOf texts) = true) :
    r.generic ∈ find_banned_drugs_in_invoice texts rows :=
  mem_find_banned_iff.mpr (foldl_kwStep_mono
    (foldl_rowStep_mem hr (fun a => rowStep_mem_self a hb hne (Or.inl hsub))))

theorem C1_witness :
    "Cefixime".toList ∈ find_banned_drugs_in_invoice
      ["Item: CEFIXIME-200mg tablet".toList]
      [⟨[], "Cefixime".toList, true, []⟩] :=
  C1_exact_match_included _ _ _ (List.mem_singleton.mpr rfl) rfl
    (by decide) (by decide)

/-- Claim C2: for a banned row whose non-empty normalized generic is not a
substring of the normalized invoice text (and with the safety net not
firing, so that no other source can add a string), the row's generic is in
the result exactly when the fuzzy score reaches 85 — the threshold is
inclusive, so a score of exactly 85 is flagged and 84 is not. -/
theorem C2_fuzzy_threshold_inclusive (texts : List (List Char))
    (r : DatasetRow) (hb : r.is_banned = true)
    (hne : normalize r.generic ≠ [])
    (hsub : isSubstr (normalize r.generic) (invoiceTextOf texts) = false)
    (hkw : isSubstr ("nimesulide".toList) (invoiceTextOf texts) = false) :
    (∀ rows, r ∈ rows →
      (85 : ℚ) ≤ partRatio (normalize r.generic) (invoiceTextOf texts) →
      r.generic ∈ find_banned_drugs_in_invoice texts rows) ∧
    (r.generic ∈ find_banned_drugs_in_invoice texts [r] ↔
      (85 : ℚ) ≤ partRatio (normalize r.generic) (invoiceTextOf texts)) := by
  constructor
  · intro rows hr hscore
    exact mem_find_banned_iff.mpr (foldl_kwStep_mono
      (foldl_rowStep_mem hr (fun a => rowStep_mem_self a hb hne (Or.inr hscore))))
  · rw [mem_find_banned_iff]
    unfold BANNED_KEYWORDS
    simp only [List.foldl_cons, List.foldl_nil]
    have hkstep : kwStep (invoiceTextOf texts)
        (rowStep (invoiceTextOf texts) [] r) ("nimesulide".toList) =
        rowStep (invoiceTextOf texts) [] r := by
      unfold kwStep
      rw [if_neg (by rw [hkw]; exact Bool.false_ne_true)]
    rw [hkstep]
    unfold rowStep
    rw [if_neg (by simp [hb]), if_neg hne, if_neg (by simp [hsub])]
    simp only [FUZZY_THRESHOLD]
    split_ifs with hsc
    · exact iff_of_true (mem_pySetInsert_self _ _) hsc
    · exact iff_of_false (by simp [List.not_mem_nil]) hsc

theorem C2_score85 :
    partRatio (normalize ("abcdefghijklmnopqrst".toList))
      (invoiceTextOf ["abcde0ghij1lmno2qrst".toList]) = 85 := by decide

theorem C2_score84 :
    partRatio (normalize ("abcdefghijklmnopqrstuvwxy".toList))
      (invoiceTextOf ["abcde0ghij1lmno2qrst3vwxy".toList]) = 84 := by decide

theorem C2_witness :
    partRatio (normalize ("abcdefghijklmnopqrst".toList))
      (invoiceTextOf ["abcde0ghij1lmno2qrst".toList]) = 85 ∧
    "abcdefghijklmnopqrst".toList ∈ find_banned_drugs_in_invoice
      ["abcde0ghij1lmno2qrst".toList]
      [⟨[], "abcdefghijklmnopqrst".toList, true, []⟩] ∧
    partRatio (normalize ("abcdefghijklmnopqrstuvwxy".toList))
      (invoiceTextOf ["abcde0ghij1lmno2qrst3vwxy".toList]) = 84 ∧
    "abcdefghijklmnopqrstuvwxy".toList ∉ find_banned_drugs_in_invoice
      ["abcde0ghij1lmno2qrst3vwxy".toList]
      [⟨[], "abcdefghijklmnopqrstuvwxy".toList, true, []⟩] := by
  refine ⟨C2_score85, ?_, C2_score84, ?_⟩
  · exact (C2_fuzzy_threshold_inclusive _
      ⟨[], "abcdefghijklmnopqrst".toList, true, []⟩ rfl (by decide)
      (by decide) (by decide)).1 _ (List.mem_singleton.mpr rfl)
      (le_of_eq C2_score85.symm)
  · intro hmem
    have hge := (C2_fuzzy_threshold_inclusive _
      ⟨[], "abcdefghijklmnopqrstuvwxy".toList, true, []⟩ rfl (by decide)
      (by decide) (by decide)).2.mp hmem
    rw [C2_score84] at hge
    exact absurd hge (by norm_num)

/-- Claim C3: rows with `is_banned = false` never contribute to the result:
the matcher output on any dataset equals its output on the sub-dataset of
banned rows only (the safety-net pass, which is independent of dataset
rows, is unchanged). -/
theorem C3_non_banned_excluded (texts : List (List Char))
    (rows : List DatasetRow) :
    find_banned_drugs_in_invoice texts rows =
    find_banned_drugs_in_invoice texts (rows.filter fun r => r.is_banned) := by
  simp only [find_banned_drugs_in_invoice]
  rw [foldl_rowStep_filter]

/-- Claim C4: on an empty dataset, an invoice whose normalized text contains
the safety-net keyword "nimesulide" yields exactly `["Nimesulide"]`: the
keyword contributes its capitalized form independently of dataset
content. -/
theorem C4_safety_net_empty_dataset (texts : List (List Char))
    (h : isSubstr ("nimesulide".toList) (invoiceTextOf texts) = true) :
    find_banned_drugs_in_invoice texts [] = ["Nimesulide".toList] := by
  simp only [find_banned_drugs_in_invoice, BANNED_KEYWORDS, List.foldl_nil,
    List.foldl_cons]
  unfold kwStep
  rw [if_pos h]
  decide

theorem C4_witness :
    find_banned_drugs_in_invoice ["Invoice NIMESULIDE tab".toList] [] =
    ["Nimesulide".toList] :=
  C4_safety_net_empty_dataset _ (by decide)

/-- Claim C5: for every invoice text and dataset, the matcher result is
lexicographically sorted and free of exact-string duplicates. -/
theorem C5_sorted_nodup (texts : List (List Char)) (rows : List DatasetRow) :
    List.Sorted strLeProp (find_banned_drugs_in_invoice texts rows) ∧
    (find_banned_drugs_in_invoice texts rows).Nodup := by
  constructor
  · exact List.sorted_insertionSort strLeProp _
  · exact (List.perm_insertionSort strLeProp _).nodup_iff.mpr
      (foldl_kwStep_nodup (foldl_rowStep_nodup List.nodup_nil))

/-- Claim C6: normalization is idempotent — normalizing an
already-normalized string returns it unchanged. -/
theorem C6_normalize_idempotent (s : List Char) :
    normalize (normalize s) = normalize s :=
  normalize_eq_self (fun c hc => normalize_mem c hc) (normalize_chain s)
    (normalize_head s) (normalize_last s)

/-- Claim C7: for every string, the normalized form contains only lowercase
ASCII letters, digits and spaces, has no leading or trailing space, and
has no two consecutive spaces (normalize is total by construction). -/
theorem C7_normalize_shape (s : List Char) :
    (∀ c ∈ normalize s, isLowerAlphaNum c = true ∨ c = ' ') ∧
    (normalize s).head? ≠ some ' ' ∧
    (normalize s).getLast? ≠ some ' ' ∧
    List.Chain' (fun x y => ¬(x = ' ' ∧ y = ' ')) (normalize s) :=
  ⟨fun c hc => normalize_mem c hc, normalize_head s, normalize_last s,
    normalize_chain s⟩

theorem C7_witness :
    (∀ c ∈ normalize ("  Héllo,  WORLD 42!  ".toList),
      isLowerAlphaNum c = true ∨ c = ' ') ∧
    (normalize ("  Héllo,  WORLD 42!  ".toList)).head? ≠ some ' ' ∧
    (normalize ("  Héllo,  WORLD 42!  ".toList)).getLast? ≠ some ' ' ∧
    List.Chain' (fun x y => ¬(x = ' ' ∧ y = ' '))
      (normalize ("  Héllo,  WORLD 42!  ".toList)) :=
  C7_normalize_shape ("  Héllo,  WORLD 42!  ".toList)

/-- Claim C8: a shaped row's `is_banned` field is true exactly when the raw
`is_banned` value, lowercased (i.e. compared case-insensitively), equals
the literal token "true"; every other raw value, a missing column
included, yields false. -/
theorem C8_is_banned_strict (r : RawRecord) (row : DatasetRow)
    (h : shapeRow r = some row) :
    (row.is_banned = true ↔
      lowerStr (pyStr (pyDictGet r ("is_banned".toList))) = "true".toList) := by
  unfold shapeRow at h
  split at h
  · rw [Option.some.injEq] at h
    subst h
    simp only [decide_eq_true_eq]
  · cases h

theorem C8_witness :
    ((⟨"B".toList, "G".toList, true, []⟩ : DatasetRow).is_banned = true ↔
      lowerStr (pyStr (pyDictGet
        [(("brand".toList), some ("B".toList)),
         (("generic".toList), some ("G".toList)),
         (("is_banned".toList), some ("TRUE".toList)),
         (("batch".toList), some ([] : List Char))] ("is_banned".toList))) =
      "true".toList) :=
  C8_is_banned_strict _ _ (by decide)

/-- Claim C9 as stated is false on the code: a malformed short CSV row is
presented by `csv.DictReader` with `None` for the columns whose values are
missing, and `.strip()` on such a `None` raises `AttributeError` (only the
`is_banned` column is guarded by `str(...)`).  Here a row carrying values
for `brand` and `generic` only raises on `batch`. -/
theorem C9_counterexample :
    shapeRow [(("brand".toList), some ("X".toList)),
      (("generic".toList), some ("Y".toList)),
      (("is_banned".toList), (none : Option (List Char))),
      (("batch".toList), (none : Option (List Char)))] = none := by decide

/-- Claim C9 amended: shaping never raises for a record whose `brand`,
`generic` and `batch` values are present strings (in particular when those
columns are absent from the record, where `.get` supplies `""`); the
fields are trimmed of surrounding whitespace, and `is_banned` tolerates
any value, `None` included. -/
theorem C9_amended_no_raise (r : RawRecord) (b g bt : List Char)
    (hb : pyDictGet r ("brand".toList) = some b)
    (hg : pyDictGet r ("generic".toList) = some g)
    (hbt : pyDictGet r ("batch".toList) = some bt) :
    shapeRow r = some
      { brand := stripChars b
        generic := stripChars g
        is_banned := decide
          (lowerStr (pyStr (pyDictGet r ("is_banned".toList))) = "true".toList)
        batch := stripChars bt } := by
  unfold shapeRow
  rw [hb, hg, hbt]

theorem C9_witness :
    shapeRow [(("generic".toList), some (" Para ".toList))] =
    some ⟨[], "Para".toList, false, []⟩ := by
  rw [C9_amended_no_raise _ [] (" Para ".toList) [] (by decide) (by decide)
    (by decide)]
  decide

/-- Claim C10 as stated is false on the code: `load_dataset_csv` only
tests `os.path.exists`, so a file that exists but cannot be opened raises
`OSError` instead of being skipped. -/
theorem C10_counterexample :
    load_dataset_csv (fun _ => FileStat.unreadable) ["data.csv".toList] =
    .error PyErr.osError := rfl

/-- Claim C10 amended: a source whose path is falsy or whose backing file
is missing contributes zero rows and raises no error — dropping all such
sources from the path list leaves the loader's outcome unchanged, so the
pipeline proceeds with the remaining readable sources (worst case the
safety net alone). -/
theorem C10_amended_skip_missing (fs : List Char → FileStat)
    (paths : List (List Char)) :
    load_dataset_csv fs paths =
    load_dataset_csv fs
      (paths.filter fun p => !(p.isEmpty || (fs p).isAbsent)) := by
  unfold load_dataset_csv
  suffices h : ∀ (ps : List (List Char)) (rows : List DatasetRow),
      loadAux fs ps rows =
      loadAux fs (ps.filter fun p => !(p.isEmpty || (fs p).isAbsent)) rows from
    h paths []
  intro ps
  induction ps with
  | nil => intro rows; rfl
  | cons p ps ih =>
    intro rows
    simp only [List.filter_cons]
    by_cases hp : p = []
    · subst hp
      have hcond : (!((List.isEmpty ([] : List Char)) || (fs []).isAbsent)) =
          false := rfl
      rw [hcond, if_neg Bool.false_ne_true]
      have hL : loadAux fs ([] :: ps) rows = loadAux fs ps rows := by
        simp [loadAux]
      rw [hL]
      exact ih rows
    · have hpe : p.isEmpty = false := by
        cases p with
        | nil => exact absurd rfl hp
        | cons a as => rfl
      cases habs : fs p with
      | absent =>
        have hcond : (!(p.isEmpty || FileStat.absent.isAbsent)) = false := by
          rw [hpe]; rfl
        rw [hcond, if_neg Bool.false_ne_true]
        have hL : loadAux fs (p :: ps) rows = loadAux fs ps rows := by
          simp only [loadAux]
          rw [if_neg hp, habs]
        rw [hL]
        exact ih rows
      | unreadable =>
        have hcond : (!(p.isEmpty || FileStat.unreadable.isAbsent)) = true := by
          rw [hpe]; rfl
        rw [hcond, if_pos rfl]
        have hL : loadAux fs (p :: ps) rows = .error .osError := by
          simp only [loadAux]
          rw [if_neg hp, habs]
        have hR : loadAux fs
            (p :: ps.filter fun q => !(q.isEmpty || (fs q).isAbsent)) rows =
            .error .osError := by
          simp only [loadAux]
          rw [if_neg hp, habs]
        rw [hL, hR]
      | readable recs =>
        have hcond :
            (!(p.isEmpty || (FileStat.readable recs).isAbsent)) = true := by
          rw [hpe]; rfl
        rw [hcond, if_pos rfl]
        cases hm : recs.mapM shapeRow with
        | none =>
          have hL : loadAux fs (p :: ps) rows = .error .attrError := by
            simp only [loadAux]
            rw [if_neg hp, habs]
            simp only [hm]
          have hR : loadAux fs
              (p :: ps.filter fun q => !(q.isEmpty || (fs q).isAbsent)) rows =
              .error .attrError := by
            simp only [loadAux]
            rw [if_neg hp, habs]
            simp only [hm]
          rw [hL, hR]
        | some rs =>
          have hL : loadAux fs (p :: ps) rows = loadAux fs ps (rows ++ rs) := by
            simp only [loadAux]
            rw [if_neg hp, habs]
            simp only [hm]
          have hR : loadAux fs
              (p :: ps.filter fun q => !(q.isEmpty || (fs q).isAbsent)) rows =
              loadAux fs (ps.filter fun q => !(q.isEmpty || (fs q).isAbsent))
                (rows ++ rs) := by
            simp only [loadAux]
            rw [if_neg hp, habs]
            simp only [hm]
          rw [hL, hR]
          exact ih (rows ++ rs)

end OcrMatcher
